import Mathlib

/-!
Verification of the `increasing-subset` scripts: the monotonic value
locator of `redraw.py` and the series generator of `generate.py`.

The Python sources are embedded shallowly:
* `indexFrom` models `list.index(y, i)` (first index at or after `i`
  whose element equals `y`, failure as `none`);
* `find_indices` models `find_indices` of `redraw.py`;
* `generateSeries` models the value construction of `generate.py`
  (real-number idealisation of the float formula, truncation toward
  zero as `astype(int)` does);
* `serializeIntArray` / `parseIntArray` model the `json.dump` output
  format (`separators=(',', ':')`, `indent=4`) and `json.load`
  restricted to flat integer arrays.
-/

/-- Helper for `indexFrom`: scan a suffix of the list, `k` being the
absolute position of its head in the original list. -/
def indexFromAux (y : Int) : List Int → Nat → Option Nat
  | [], _ => none
  | v :: vs, k => if v = y then some k else indexFromAux y vs (k + 1)

/-- Model of Python `values.index(y, i)`: the first position at or
after `i` holding `y`, `none` when absent (Python raises ValueError). -/
def indexFrom (values : List Int) (y : Int) (i : Nat) : Option Nat :=
  indexFromAux y (values.drop i) i

/-- The loop of `find_indices` in `redraw.py`, cursor passed explicitly:
`i = values.index(y, i); x.append(i)` for each `y`; note the cursor is
set to the match position itself, not one past it. -/
def find_indices_go (values : List Int) : List Int → Nat → Option (List Nat)
  | [], _ => some []
  | y :: ys, i =>
    match indexFrom values y i with
    | none => none
    | some j =>
      match find_indices_go values ys j with
      | none => none
      | some rest => some (j :: rest)

/-- Model of `find_indices(values, ys)` of `redraw.py`; `none` models
the uncaught ValueError (no partial index list escapes). -/
def find_indices (values ys : List Int) : Option (List Nat) :=
  find_indices_go values ys 0

/-- Spec-side description of one lookup step: `j` is the least position
at or after the cursor `c` holding value `y`. -/
def IsLeastMatch (s : List Int) (y : Int) (c j : Nat) : Prop :=
  c ≤ j ∧ s[j]? = some y ∧ ∀ m, c ≤ m → m < j → s[m]? ≠ some y

/-- Spec-side description of the whole locator run (amended to the
code's actual rule): each target is matched at the least position at
or after the cursor, and the cursor becomes that position itself (it
is not advanced past the match). -/
def ScanFrom (s : List Int) : List Int → Nat → List Nat → Prop
  | [], _, idxs => idxs = []
  | y :: ys, c, idxs =>
    ∃ j rest, idxs = j :: rest ∧ IsLeastMatch s y c j ∧ ScanFrom s ys j rest

/-- A (not necessarily leftmost) monotone assignment of positions to
targets: each target occurs at its assigned position, and positions
are non-decreasing starting at cursor `c`. The locator succeeds
exactly when such an assignment exists. -/
def MatchingFrom (s : List Int) : List Int → Nat → List Nat → Prop
  | [], _, idxs => idxs = []
  | y :: ys, c, idxs =>
    ∃ j rest, idxs = j :: rest ∧ c ≤ j ∧ s[j]? = some y ∧ MatchingFrom s ys j rest

/-- The mutable state of the `find_indices` loop in `redraw.py`:
the two input lists, the accumulator `x` and the cursor `i`. -/
structure AnnotState where
  values : List Int
  ys : List Int
  x : List Nat
  i : Nat
deriving DecidableEq

/-- The `for y in ys` loop of `find_indices`, with the whole state kept
explicit, iterating over the list of remaining targets. -/
def runLoop : AnnotState → List Int → Option AnnotState
  | st, [] => some st
  | st, y :: rest =>
    match indexFrom st.values y st.i with
    | none => none
    | some j =>
      runLoop { values := st.values, ys := st.ys, x := st.x ++ [j], i := j } rest

/-- `Y = 64`: number of days per "year" in `generate.py`. -/
def Y : Nat := 64

/-- `NY = 1`: number of years in `generate.py`. -/
def NY : Nat := 1

/-- The float formula `f` of `generate.py` (real-number idealisation),
with the point count `n` and the noise vector passed explicitly:
`100 + 200 * ((n - t) / n) + 50 * (sin(0.5 * t / n) + 1) + 75 * noise[t]`. -/
noncomputable def f (n : Nat) (noise : Nat → ℝ) (t : Nat) : ℝ :=
  100 + 200 * (((n : ℝ) - (t : ℝ)) / (n : ℝ))
    + 50 * (Real.sin (0.5 * (t : ℝ) / (n : ℝ)) + 1) + 75 * noise t

/-- Truncation toward zero, the conversion `astype(int)` applies to
each float value. -/
noncomputable def truncToZero (x : ℝ) : ℤ :=
  if 0 ≤ x then ⌊x⌋ else ⌈x⌉

/-- The integer Series of `generate.py`: `f` evaluated over
`t = 0, ..., n-1`, each value truncated to an integer. -/
noncomputable def generateSeries (n : Nat) (noise : Nat → ℝ) : List ℤ :=
  (List.range n).map fun t => truncToZero (f n noise t)

/-- Whitespace accepted between JSON tokens by `json.load`. -/
def isWs (c : Char) : Bool :=
  c = ' ' || c = '\n' || c = '\t' || c = '\r'

/-- Decimal digit test for the JSON number parser. -/
def isDigitChar (c : Char) : Bool :=
  '0' ≤ c && c ≤ '9'

/-- Numeric value of a decimal digit character. -/
def digitVal (c : Char) : Nat :=
  c.toNat - '0'.toNat

/-- Decimal rendering of a natural number, most significant digit
first, as Python renders a non-negative int. -/
def natChars (n : Nat) : List Char :=
  if n = 0 then ['0'] else ((Nat.digits 10 n).map Nat.digitChar).reverse

/-- Decimal rendering of an integer, `-` prefix for negatives, as
Python renders an int inside `json.dump`. -/
def intChars (z : Int) : List Char :=
  if z < 0 then '-' :: natChars z.natAbs else natChars z.natAbs

/-- Skip inter-token whitespace, as `json.load` does. -/
def skipWs (cs : List Char) : List Char :=
  cs.dropWhile isWs

/-- Parse a maximal run of decimal digits into a natural number. -/
def parseNat (cs : List Char) : Option (Nat × List Char) :=
  let p := cs.span isDigitChar
  if p.1 = [] then none else
    some (p.1.foldl (fun a c => a * 10 + digitVal c) 0, p.2)

/-- Parse a JSON integer: optional minus sign then digits. -/
def parseInt : List Char → Option (Int × List Char)
  | [] => none
  | c :: rest =>
    if c = '-' then (parseNat rest).map fun p => (-(p.1 : Int), p.2)
    else (parseNat (c :: rest)).map fun p => ((p.1 : Int), p.2)

/-- Parse the remainder of a JSON array after its first element:
either `]`, or `,` followed by an integer and a recursive remainder.
`fuel` bounds the recursion; every call consumes at least the comma. -/
def parseRest : Nat → List Char → Option (List Int × List Char)
  | 0, _ => none
  | fuel + 1, cs =>
    match skipWs cs with
    | [] => none
    | c :: rest =>
      if c = ']' then some ([], rest)
      else if c = ',' then
        match parseInt (skipWs rest) with
        | none => none
        | some (z, rest2) =>
          match parseRest fuel rest2 with
          | none => none
          | some (zs, rest3) => some (z :: zs, rest3)
      else none

/-- Model of `json.load` restricted to flat arrays of integers:
whitespace-tolerant parse of `[ int (, int)* ]` consuming the whole
input. -/
def parseIntArray (cs : List Char) : Option (List Int) :=
  match skipWs cs with
  | [] => none
  | c :: rest =>
    if c = '[' then
      match skipWs rest with
      | [] => none
      | c1 :: rest1 =>
        if c1 = ']' then (if skipWs rest1 = [] then some [] else none)
        else
          match parseInt (c1 :: rest1) with
          | none => none
          | some (z, r) =>
            match parseRest (r.length + 1) r with
            | none => none
            | some (zs, r2) => if skipWs r2 = [] then some (z :: zs) else none
    else none

/-- The `,`-separated tail items of the serialized array: `json.dump`
with `separators=(',', ':')` and `indent=4` emits each further item as
`,` newline and four spaces of indentation before the literal. -/
def serItems : List Int → List Char
  | [] => []
  | z :: zs => [',', '\n', ' ', ' ', ' ', ' '] ++ intChars z ++ serItems zs

/-- Model of the `json.dump(values, separators=(',', ':'), sort_keys=True,
indent=4)` output of `generate.py` for a flat integer array. -/
def serializeIntArray : List Int → List Char
  | [] => ['[', ']']
  | z :: zs =>
    ['[', '\n', ' ', ' ', ' ', ' '] ++ intChars z ++ serItems zs ++ ['\n', ']']

theorem indexFromAux_some_iff (y : Int) :
    ∀ (l : List Int) (k j : Nat),
      indexFromAux y l k = some j ↔
        ∃ off, j = k + off ∧ l[off]? = some y ∧ ∀ m, m < off → l[m]? ≠ some y := by
  intro l
  induction l with
  | nil =>
    intro k j
    simp [indexFromAux]
  | cons v vs ih =>
    intro k j
    by_cases hv : v = y
    · simp only [indexFromAux, if_pos hv, Option.some_inj]
      constructor
      · rintro rfl
        refine ⟨0, by omega, by simp [hv], ?_⟩
        intro m hm
        exact absurd hm (by omega)
      · rintro ⟨off, rfl, hoff, hmin⟩
        rcases Nat.eq_zero_or_pos off with h0 | hpos
        · omega
        · exact absurd (by simp [hv] : (v :: vs)[0]? = some y) (hmin 0 hpos)
    · simp only [indexFromAux, if_neg hv]
      rw [ih (k + 1) j]
      constructor
      · rintro ⟨off, rfl, hoff, hmin⟩
        refine ⟨off + 1, by omega, by simpa using hoff, ?_⟩
        intro m hm
        match m with
        | 0 => simpa using fun h => hv h
        | m' + 1 => simpa using hmin m' (by omega)
      · rintro ⟨off, hj, hoff, hmin⟩
        match off with
        | 0 =>
          simp at hoff
          exact absurd hoff hv
        | off' + 1 =>
          refine ⟨off', by omega, by simpa using hoff, ?_⟩
          intro m hm
          simpa using hmin (m + 1) (by omega)

theorem indexFromAux_none_iff (y : Int) :
    ∀ (l : List Int) (k : Nat),
      indexFromAux y l k = none ↔ ∀ (m : Nat), l[m]? ≠ some y := by
  intro l
  induction l with
  | nil =>
    intro k
    simp [indexFromAux]
  | cons v vs ih =>
    intro k
    by_cases hv : v = y
    · simp only [indexFromAux, if_pos hv]
      constructor
      · intro h
        exact absurd h (by simp)
      · intro h
        exact absurd (by simp [hv] : (v :: vs)[0]? = some y) (h 0)
    · simp only [indexFromAux, if_neg hv]
      rw [ih (k + 1)]
      constructor
      · intro h m
        match m with
        | 0 => simpa using fun hh => hv hh
        | m' + 1 => simpa using h m'
      · intro h m
        simpa using h (m + 1)

theorem indexFrom_some_iff (s : List Int) (y : Int) (i j : Nat) :
    indexFrom s y i = some j ↔ IsLeastMatch s y i j := by
  unfold indexFrom IsLeastMatch
  rw [indexFromAux_some_iff]
  constructor
  · rintro ⟨off, rfl, hoff, hmin⟩
    rw [List.getElem?_drop] at hoff
    refine ⟨by omega, hoff, ?_⟩
    intro m him hmj
    have hm : m = i + (m - i) := by omega
    rw [hm, ← List.getElem?_drop]
    exact hmin (m - i) (by omega)
  · rintro ⟨hij, hj, hmin⟩
    refine ⟨j - i, by omega, ?_, ?_⟩
    · rw [List.getElem?_drop, show i + (j - i) = j by omega]
      exact hj
    · intro m hm
      rw [List.getElem?_drop]
      exact hmin (i + m) (by omega) (by omega)

theorem indexFrom_none_iff (s : List Int) (y : Int) (i : Nat) :
    indexFrom s y i = none ↔ ∀ (m : Nat), i ≤ m → s[m]? ≠ some y := by
  unfold indexFrom
  rw [indexFromAux_none_iff]
  constructor
  · intro h m him
    have hm : m = i + (m - i) := by omega
    rw [hm, ← List.getElem?_drop]
    exact h (m - i)
  · intro h m
    rw [List.getElem?_drop]
    exact h (i + m) (by omega)

theorem go_some_iff (s : List Int) :
    ∀ (ts : List Int) (c : Nat) (idxs : List Nat),
      find_indices_go s ts c = some idxs ↔ ScanFrom s ts c idxs := by
  intro ts
  induction ts with
  | nil =>
    intro c idxs
    simp [find_indices_go, ScanFrom, eq_comm]
  | cons y ys ih =>
    intro c idxs
    constructor
    · intro h
      rcases hidx : indexFrom s y c with _ | j
      · simp only [find_indices_go, hidx] at h
        exact Option.noConfusion h
      · rcases hgo : find_indices_go s ys j with _ | rest
        · simp only [find_indices_go, hidx, hgo] at h
          exact Option.noConfusion h
        · simp only [find_indices_go, hidx, hgo, Option.some_inj] at h
          exact ⟨j, rest, h.symm, (indexFrom_some_iff s y c j).mp hidx, (ih j rest).mp hgo⟩
    · rintro ⟨j, rest, rfl, hleast, hscan⟩
      have hidx := (indexFrom_some_iff s y c j).mpr hleast
      have hgo := (ih j rest).mpr hscan
      simp [find_indices_go, hidx, hgo]

theorem scanFrom_matchingFrom (s : List Int) :
    ∀ (ts : List Int) (c : Nat) (idxs : List Nat),
      ScanFrom s ts c idxs → MatchingFrom s ts c idxs := by
  intro ts
  induction ts with
  | nil =>
    intro c idxs h
    exact h
  | cons y ys ih =>
    rintro c idxs ⟨j, rest, rfl, ⟨hc, hj, _⟩, hscan⟩
    exact ⟨j, rest, rfl, hc, hj, ih j rest hscan⟩

theorem matchingFrom_mono (s : List Int) :
    ∀ (ts : List Int) (c c' : Nat) (idxs : List Nat),
      c' ≤ c → MatchingFrom s ts c idxs → MatchingFrom s ts c' idxs := by
  intro ts
  cases ts with
  | nil =>
    intro c c' idxs _ h
    exact h
  | cons y ys =>
    rintro c c' idxs hcc ⟨j, rest, rfl, hc, hj, hm⟩
    exact ⟨j, rest, rfl, by omega, hj, hm⟩

theorem go_some_of_matchingFrom (s : List Int) :
    ∀ (ts : List Int) (c : Nat) (idxs : List Nat),
      MatchingFrom s ts c idxs → ∃ out, find_indices_go s ts c = some out := by
  intro ts
  induction ts with
  | nil =>
    intro c idxs _
    exact ⟨[], rfl⟩
  | cons y ys ih =>
    rintro c idxs ⟨j, rest, rfl, hc, hj, hm⟩
    rcases hidx : indexFrom s y c with _ | j0
    · rw [indexFrom_none_iff] at hidx
      exact absurd hj (hidx j hc)
    · have hleast := (indexFrom_some_iff s y c j0).mp hidx
      have hj0j : j0 ≤ j := by
        by_contra hlt
        exact hleast.2.2 j hc (by omega) hj
      rcases ih j0 rest (matchingFrom_mono s ys j j0 rest hj0j hm) with ⟨out, hout⟩
      refine ⟨j0 :: out, ?_⟩
      simp [find_indices_go, hidx, hout]

theorem go_none_iff (s : List Int) (ts : List Int) (c : Nat) :
    find_indices_go s ts c = none ↔ ¬∃ idxs, MatchingFrom s ts c idxs := by
  constructor
  · rintro h ⟨idxs, hm⟩
    rcases go_some_of_matchingFrom s ts c idxs hm with ⟨out, hout⟩
    rw [h] at hout
    exact absurd hout (by simp)
  · intro h
    rcases hgo : find_indices_go s ts c with _ | out
    · rfl
    · exact absurd ⟨out, scanFrom_matchingFrom s ts c out ((go_some_iff s ts c out).mp hgo)⟩ h

theorem scanFrom_length (s : List Int) :
    ∀ (ts : List Int) (c : Nat) (idxs : List Nat),
      ScanFrom s ts c idxs → idxs.length = ts.length := by
  intro ts
  induction ts with
  | nil =>
    intro c idxs h
    have h0 : idxs = [] := h
    simp [h0]
  | cons y ys ih =>
    rintro c idxs ⟨j, rest, rfl, _, hscan⟩
    simp [ih j rest hscan]

theorem scanFrom_head_ge (s : List Int) :
    ∀ (ts : List Int) (c : Nat) (idxs : List Nat),
      ScanFrom s ts c idxs → ∀ j ∈ idxs.head?, c ≤ j := by
  intro ts
  cases ts with
  | nil =>
    intro c idxs h j hj
    have h0 : idxs = [] := h
    simp [h0] at hj
  | cons y ys =>
    rintro c idxs ⟨j, rest, rfl, ⟨hc, _, _⟩, _⟩ j' hj'
    simp at hj'
    omega

theorem scanFrom_chain (s : List Int) :
    ∀ (ts : List Int) (c : Nat) (idxs : List Nat),
      ScanFrom s ts c idxs → List.Chain' (fun a b => a ≤ b) idxs := by
  intro ts
  induction ts with
  | nil =>
    intro c idxs h
    have h0 : idxs = [] := h
    simp [h0]
  | cons y ys ih =>
    rintro c idxs ⟨j, rest, rfl, _, hscan⟩
    rw [List.chain'_cons']
    exact ⟨fun b hb => scanFrom_head_ge s ys j rest hscan b hb, ih j rest hscan⟩

theorem runLoop_spec (v ys0 : List Int) :
    ∀ (rest : List Int) (acc : List Nat) (i : Nat) (st' : AnnotState),
      runLoop ⟨v, ys0, acc, i⟩ rest = some st' →
        st'.values = v ∧ st'.ys = ys0 ∧
          ∃ out, find_indices_go v rest i = some out ∧ st'.x = acc ++ out := by
  intro rest
  induction rest with
  | nil =>
    intro acc i st' h
    simp only [runLoop, Option.some_inj] at h
    subst h
    exact ⟨rfl, rfl, [], rfl, by simp⟩
  | cons y rest ih =>
    intro acc i st' h
    rcases hidx : indexFrom v y i with _ | j
    · simp only [runLoop, hidx] at h
      exact Option.noConfusion h
    · simp only [runLoop, hidx] at h
      rcases ih (acc ++ [j]) j st' h with ⟨hv, hy, out, hgo, hx⟩
      refine ⟨hv, hy, j :: out, ?_, ?_⟩
      · simp [find_indices_go, hidx, hgo]
      · simp [hx]

/-- C1 counterexample: on Series `[10,20,20,30,40,20]` and targets
`[20,20,40]` the code does not return `[1,2,4]`; the cursor is not
advanced past a match, so the second `20` re-matches index 1. -/
theorem find_indices_strict_cursor_cex :
    find_indices [10, 20, 20, 30, 40, 20] [20, 20, 40] ≠ some [1, 2, 4] := by decide

/-- C1 (amended): every successful run scans for each target starting
at the index of the previous match (at or after it, starting at 0 for
the first target), and on the spec example the result is `[1,1,4]`. -/
theorem find_indices_cursor_resume :
    (∀ (s ts : List Int) (idxs : List Nat),
      find_indices s ts = some idxs → ScanFrom s ts 0 idxs) ∧
    find_indices [10, 20, 20, 30, 40, 20] [20, 20, 40] = some [1, 1, 4] :=
  ⟨fun s ts idxs h => (go_some_iff s ts 0 idxs).mp h, by decide⟩

/-- C1 witness: the amended scanning rule instantiated on a concrete run. -/
theorem find_indices_cursor_resume_witness :
    find_indices [5, 7] [7] = some [1] ∧ ScanFrom [5, 7] [7] 0 [1] :=
  ⟨by decide, find_indices_cursor_resume.1 [5, 7] [7] [1] (by decide)⟩

/-- C2: the locator returns exactly the leftmost monotone matching:
each returned index is the smallest position at or after the
previously returned one (0 for the first) holding its target; in
particular two consecutive equal targets yield the same index twice. -/
theorem find_indices_least_semantics :
    (∀ (s ts : List Int) (idxs : List Nat),
      find_indices s ts = some idxs ↔ ScanFrom s ts 0 idxs) ∧
    (∀ (s : List Int) (y : Int) (ys : List Int) (j : Nat) (rest : List Nat),
      find_indices s (y :: y :: ys) = some (j :: rest) → rest.head? = some j) := by
  refine ⟨fun s ts idxs => go_some_iff s ts 0 idxs, ?_⟩
  intro s y ys j rest h
  rcases (go_some_iff s (y :: y :: ys) 0 (j :: rest)).mp h with
    ⟨j1, rest1, heq, hleast1, hscan⟩
  injection heq with h1 h2
  subst h1
  subst h2
  rcases hscan with ⟨j2, rest2, heq2, hleast2, _⟩
  have hy1 : s[j]? = some y := hleast1.2.1
  have hj2 : j2 = j := by
    rcases hleast2 with ⟨hj12, _, hmin2⟩
    by_contra hne
    exact hmin2 j (by omega) (by omega) hy1
  subst heq2
  simp [hj2]

/-- C2 witness: duplicated target `7` yields index 1 twice. -/
theorem find_indices_least_semantics_witness :
    find_indices [5, 7] [7, 7] = some [1, 1] ∧ ([1] : List Nat).head? = some 1 :=
  ⟨by decide, find_indices_least_semantics.2 [5, 7] 7 [] 1 [1] (by decide)⟩

/-- C3: the locator fails (returns no index list at all) exactly when
no monotone assignment of positions to targets exists, i.e. some
target is absent at or after the cursor reached; on the spec example
it fails, after the first target `20` was matched at index 1. -/
theorem find_indices_failure_iff :
    (∀ (s ts : List Int),
      find_indices s ts = none ↔ ¬∃ idxs, MatchingFrom s ts 0 idxs) ∧
    find_indices [10, 20, 30] [20, 99] = none ∧
    indexFrom [10, 20, 30] 20 0 = some 1 :=
  ⟨fun s ts => go_none_iff s ts 0, by decide, by decide⟩

/-- C3 witness: the failure characterisation applied to the spec example. -/
theorem find_indices_failure_iff_witness :
    ¬∃ idxs, MatchingFrom [10, 20, 30] [20, 99] 0 idxs :=
  (find_indices_failure_iff.1 [10, 20, 30] [20, 99]).mp (by decide)

/-- C5: on success the returned index list is non-decreasing. -/
theorem find_indices_nondecreasing (s ts : List Int) (idxs : List Nat)
    (h : find_indices s ts = some idxs) : List.Chain' (fun a b => a ≤ b) idxs :=
  scanFrom_chain s ts 0 idxs ((go_some_iff s ts 0 idxs).mp h)

/-- C5 witness: a concrete successful run with a non-decreasing result. -/
theorem find_indices_nondecreasing_witness :
    find_indices [3, 5, 5, 9] [5, 9] = some [1, 3] ∧
    List.Chain' (fun a b => a ≤ b) [1, 3] :=
  ⟨by decide, find_indices_nondecreasing [3, 5, 5, 9] [5, 9] [1, 3] (by decide)⟩

/-- C6: on success the index list has the same length as the target list. -/
theorem find_indices_length (s ts : List Int) (idxs : List Nat)
    (h : find_indices s ts = some idxs) : idxs.length = ts.length :=
  scanFrom_length s ts 0 idxs ((go_some_iff s ts 0 idxs).mp h)

/-- C6 witness: length preservation on a concrete run. -/
theorem find_indices_length_witness :
    find_indices [5, 6] [6] = some [1] ∧
    ([1] : List Nat).length = ([6] : List Int).length :=
  ⟨by decide, find_indices_length [5, 6] [6] [1] (by decide)⟩

/-- C9: the locator loop, run with its state explicit, leaves both
input lists unchanged, and its accumulator equals the value of the
pure function `find_indices`. -/
theorem find_indices_pure (values ys : List Int) (st' : AnnotState)
    (h : runLoop ⟨values, ys, [], 0⟩ ys = some st') :
    st'.values = values ∧ st'.ys = ys ∧ find_indices values ys = some st'.x := by
  rcases runLoop_spec values ys ys [] 0 st' h with ⟨hv, hy, out, hgo, hx⟩
  exact ⟨hv, hy, by simp [find_indices, hgo, hx]⟩

/-- C9 witness: a concrete loop run preserving both inputs. -/
theorem find_indices_pure_witness :
    runLoop ⟨[10, 20, 30], [20], [], 0⟩ [20] = some ⟨[10, 20, 30], [20], [1], 1⟩ ∧
    ((AnnotState.mk [10, 20, 30] [20] [1] 1).values = [10, 20, 30] ∧
      (AnnotState.mk [10, 20, 30] [20] [1] 1).ys = [20] ∧
      find_indices [10, 20, 30] [20] = some (AnnotState.mk [10, 20, 30] [20] [1] 1).x) :=
  ⟨by decide, find_indices_pure [10, 20, 30] [20] (AnnotState.mk [10, 20, 30] [20] [1] 1) (by decide)⟩

/-- C10: an empty target list always succeeds with an empty index list. -/
theorem find_indices_empty_targets (s : List Int) : find_indices s [] = some [] := rfl

/-- C4: each Series element is the truncation toward zero of the
closed-form value `100 + 200*((n-t)/n) + 50*(sin(0.5*t/n)+1) + 75*noise[t]`. -/
theorem generateSeries_formula (n : Nat) (noise : Nat → ℝ) (t : Nat) (h : t < n) :
    (generateSeries n noise)[t]? =
      some (truncToZero (100 + 200 * (((n : ℝ) - (t : ℝ)) / (n : ℝ))
        + 50 * (Real.sin (0.5 * (t : ℝ) / (n : ℝ)) + 1) + 75 * noise t)) := by
  simp [generateSeries, List.getElem?_range h, f]

/-- C4 witness: the formula read off at `n = 1`, `t = 0`, zero noise. -/
theorem generateSeries_formula_witness :
    0 < 1 ∧ (generateSeries 1 (fun _ => 0))[0]? =
      some (truncToZero (100 + 200 * (((1 : ℝ) - (0 : ℝ)) / (1 : ℝ))
        + 50 * (Real.sin (0.5 * (0 : ℝ) / (1 : ℝ)) + 1) + 75 * 0)) :=
  ⟨by decide, by simpa using generateSeries_formula 1 (fun _ => 0) 0 (by decide)⟩

/-- C8: for every positive `n` the generated Series has exactly `n`
elements. -/
theorem generateSeries_length (n : Nat) (noise : Nat → ℝ) (_h : 0 < n) :
    (generateSeries n noise).length = n := by
  simp [generateSeries]

/-- C8 witness: at the source's point count `n = Y * NY = 64`. -/
theorem generateSeries_length_witness :
    0 < Y * NY ∧ (generateSeries (Y * NY) (fun _ => 0)).length = Y * NY :=
  ⟨by decide, generateSeries_length (Y * NY) (fun _ => 0) (by decide)⟩

theorem digitVal_digitChar : ∀ d : Nat, d < 10 → digitVal (Nat.digitChar d) = d := by decide

theorem isDigitChar_digitChar : ∀ d : Nat, d < 10 → isDigitChar (Nat.digitChar d) = true := by
  decide

theorem digit_not_ws (c : Char) (h : isDigitChar c = true) : isWs c = false := by
  rcases hw : isWs c with _ | _
  · rfl
  · simp only [isWs, Bool.or_eq_true, decide_eq_true_eq] at hw
    rcases hw with ((rfl | rfl) | rfl) | rfl <;> exact absurd h (by decide)

theorem digit_ne_rbracket (c : Char) (h : isDigitChar c = true) : c ≠ ']' := by
  intro hc
  subst hc
  exact absurd h (by decide)

theorem digit_ne_minus (c : Char) (h : isDigitChar c = true) : c ≠ '-' := by
  intro hc
  subst hc
  exact absurd h (by decide)

theorem takeWhile_append_of_all (p : Char → Bool) :
    ∀ (ds rest : List Char), (∀ c ∈ ds, p c = true) →
      (∀ c, rest.head? = some c → p c = false) →
      (ds ++ rest).takeWhile p = ds := by
  intro ds
  induction ds with
  | nil =>
    intro rest _ hrest
    cases rest with
    | nil => rfl
    | cons c t => simp [List.takeWhile_cons, hrest c rfl]
  | cons d ds ih =>
    intro rest hds hrest
    have hd : p d = true := hds d (by simp)
    simp [List.takeWhile_cons, hd, ih rest (fun c hc => hds c (by simp [hc])) hrest]

theorem dropWhile_append_of_all (p : Char → Bool) :
    ∀ (ds rest : List Char), (∀ c ∈ ds, p c = true) →
      (∀ c, rest.head? = some c → p c = false) →
      (ds ++ rest).dropWhile p = rest := by
  intro ds
  induction ds with
  | nil =>
    intro rest _ hrest
    cases rest with
    | nil => rfl
    | cons c t => simp [List.dropWhile_cons, hrest c rfl]
  | cons d ds ih =>
    intro rest hds hrest
    have hd : p d = true := hds d (by simp)
    simp [List.dropWhile_cons, hd, ih rest (fun c hc => hds c (by simp [hc])) hrest]

theorem span_append_of_all (p : Char → Bool) (ds rest : List Char)
    (hds : ∀ c ∈ ds, p c = true)
    (hrest : ∀ c, rest.head? = some c → p c = false) :
    (ds ++ rest).span p = (ds, rest) := by
  rw [List.span_eq_take_drop, takeWhile_append_of_all p ds rest hds hrest,
    dropWhile_append_of_all p ds rest hds hrest]

theorem natChars_ne_nil (n : Nat) : natChars n ≠ [] := by
  by_cases h0 : n = 0
  · simp [natChars, h0]
  · simp [natChars, h0, Nat.digits_eq_nil_iff_eq_zero]

theorem natChars_all_digits (n : Nat) : ∀ c ∈ natChars n, isDigitChar c = true := by
  intro c hc
  by_cases h0 : n = 0
  · simp [natChars, h0] at hc
    subst hc
    decide
  · simp [natChars, h0] at hc
    rcases hc with ⟨d, hd, rfl⟩
    exact isDigitChar_digitChar d (Nat.digits_lt_base (by norm_num) hd)

theorem foldl_digits_reverse :
    ∀ (L : List Nat), (∀ d ∈ L, d < 10) → ∀ (a : Nat),
      ((L.map Nat.digitChar).reverse).foldl (fun acc c => acc * 10 + digitVal c) a
        = a * 10 ^ L.length + Nat.ofDigits 10 L := by
  intro L
  induction L with
  | nil =>
    intro _ a
    simp [Nat.ofDigits]
  | cons d L ih =>
    intro hL a
    have hd : d < 10 := hL d (by simp)
    simp only [List.map_cons, List.reverse_cons, List.foldl_append, List.foldl_cons,
      List.foldl_nil]
    rw [ih (fun x hx => hL x (by simp [hx])) a, digitVal_digitChar d hd,
      Nat.ofDigits_cons, List.length_cons, pow_succ]
    ring

theorem natChars_foldl (n : Nat) :
    (natChars n).foldl (fun acc c => acc * 10 + digitVal c) 0 = n := by
  by_cases h0 : n = 0
  · subst h0
    decide
  · rw [natChars, if_neg h0,
      foldl_digits_reverse (Nat.digits 10 n) (fun d hd => Nat.digits_lt_base (by norm_num) hd) 0,
      Nat.ofDigits_digits]
    ring

theorem parseNat_append (n : Nat) (rest : List Char)
    (hrest : ∀ c, rest.head? = some c → isDigitChar c = false) :
    parseNat (natChars n ++ rest) = some (n, rest) := by
  simp only [parseNat,
    span_append_of_all isDigitChar (natChars n) rest (natChars_all_digits n) hrest]
  rw [if_neg (natChars_ne_nil n)]
  rw [natChars_foldl n]

theorem intChars_ne_nil (z : Int) : intChars z ≠ [] := by
  by_cases hz : z < 0
  · simp [intChars, hz]
  · simp [intChars, hz, natChars_ne_nil]

theorem intChars_head (z : Int) :
    ∀ c cs, intChars z = c :: cs → isWs c = false ∧ c ≠ ']' := by
  intro c cs hic
  by_cases hz : z < 0
  · rw [intChars, if_pos hz] at hic
    injection hic with h1 _
    subst h1
    exact ⟨by decide, by decide⟩
  · rw [intChars, if_neg hz] at hic
    have hcd : isDigitChar c = true := natChars_all_digits z.natAbs c (by simp [hic])
    exact ⟨digit_not_ws c hcd, digit_ne_rbracket c hcd⟩

theorem parseInt_append (z : Int) (rest : List Char)
    (hrest : ∀ c, rest.head? = some c → isDigitChar c = false) :
    parseInt (intChars z ++ rest) = some (z, rest) := by
  by_cases hz : z < 0
  · rw [intChars, if_pos hz]
    simp only [List.cons_append, parseInt, if_pos rfl, if_true]
    rw [parseNat_append z.natAbs rest hrest]
    have habs : -(z.natAbs : Int) = z := by omega
    simp only [Option.map_some', habs]
  · rw [intChars, if_neg hz]
    rcases hnc : natChars z.natAbs with _ | ⟨c, cs⟩
    · exact absurd hnc (natChars_ne_nil _)
    · have hcd : isDigitChar c = true := natChars_all_digits z.natAbs c (by simp [hnc])
      simp only [List.cons_append, parseInt, if_neg (digit_ne_minus c hcd)]
      rw [show c :: (cs ++ rest) = (c :: cs) ++ rest from rfl, ← hnc,
        parseNat_append z.natAbs rest hrest]
      have habs : (z.natAbs : Int) = z := by omega
      simp only [Option.map_some', habs]

theorem skipWs_cons_ws (c : Char) (r : List Char) (h : isWs c = true) :
    skipWs (c :: r) = skipWs r := by
  simp [skipWs, List.dropWhile_cons, h]

theorem skipWs_cons_not_ws (c : Char) (r : List Char) (h : isWs c = false) :
    skipWs (c :: r) = c :: r := by
  simp [skipWs, List.dropWhile_cons, h]

theorem skipWs_intChars_append (z : Int) (r : List Char) :
    skipWs (intChars z ++ r) = intChars z ++ r := by
  rcases hic : intChars z with _ | ⟨c, cs⟩
  · exact absurd hic (intChars_ne_nil z)
  · have hw := (intChars_head z c cs hic).1
    simp [List.cons_append, skipWs_cons_not_ws c _ hw]

theorem serItems_tail_head (zs : List Int) :
    ∀ c, (serItems zs ++ ['\n', ']']).head? = some c → isDigitChar c = false := by
  cases zs with
  | nil =>
    intro c hc
    simp [serItems] at hc
    subst hc
    decide
  | cons z zs =>
    intro c hc
    simp [serItems] at hc
    subst hc
    decide

theorem serItems_length_ge (zs : List Int) : zs.length ≤ (serItems zs).length := by
  induction zs with
  | nil => simp [serItems]
  | cons z zs ih =>
    simp [serItems]
    omega

theorem parseRest_serItems :
    ∀ (zs : List Int) (fuel : Nat), zs.length < fuel →
      parseRest fuel (serItems zs ++ ['\n', ']']) = some (zs, []) := by
  intro zs
  induction zs with
  | nil =>
    intro fuel hf
    match fuel, hf with
    | fuel + 1, _ =>
      show parseRest (fuel + 1) ('\n' :: [']']) = some ([], [])
      simp only [parseRest]
      rw [skipWs_cons_ws '\n' _ (by decide), skipWs_cons_not_ws ']' _ (by decide)]
      simp
  | cons z zs ih =>
    intro fuel hf
    match fuel, hf with
    | fuel + 1, hf =>
      have hlen : zs.length < fuel := by
        simp only [List.length_cons] at hf
        omega
      have hws : skipWs ('\n' :: ' ' :: ' ' :: ' ' :: ' ' ::
            (intChars z ++ (serItems zs ++ ['\n', ']'])))
          = intChars z ++ (serItems zs ++ ['\n', ']']) := by
        rw [skipWs_cons_ws '\n' _ (by decide), skipWs_cons_ws ' ' _ (by decide),
          skipWs_cons_ws ' ' _ (by decide), skipWs_cons_ws ' ' _ (by decide),
          skipWs_cons_ws ' ' _ (by decide), skipWs_intChars_append]
      simp only [serItems, List.cons_append, List.append_assoc, List.nil_append, parseRest,
        skipWs_cons_not_ws ',' _ (by decide),
        if_neg (by decide : ¬(',' : Char) = ']'), if_pos (rfl : (',' : Char) = ','),
        hws, parseInt_append z (serItems zs ++ ['\n', ']']) (serItems_tail_head zs),
        ih fuel hlen, if_true]

/-- C7: serializing an integer Series in the `json.dump` format of
`generate.py` and parsing it back as `json.load` does yields the same
sequence of integers. -/
theorem serialize_roundTrip (l : List Int) :
    parseIntArray (serializeIntArray l) = some l := by
  cases l with
  | nil => decide
  | cons z zs =>
    rcases hic : intChars z with _ | ⟨c, cs⟩
    · exact absurd hic (intChars_ne_nil z)
    · have hhead := intChars_head z c cs hic
      have hwsc : skipWs ('\n' :: ' ' :: ' ' :: ' ' :: ' ' ::
            (c :: (cs ++ (serItems zs ++ ['\n', ']']))))
          = c :: (cs ++ (serItems zs ++ ['\n', ']'])) := by
        rw [skipWs_cons_ws '\n' _ (by decide), skipWs_cons_ws ' ' _ (by decide),
          skipWs_cons_ws ' ' _ (by decide), skipWs_cons_ws ' ' _ (by decide),
          skipWs_cons_ws ' ' _ (by decide), skipWs_cons_not_ws c _ hhead.1]
      have hpi : parseInt (c :: (cs ++ (serItems zs ++ ['\n', ']'])))
          = some (z, serItems zs ++ ['\n', ']']) := by
        rw [show c :: (cs ++ (serItems zs ++ ['\n', ']']))
            = intChars z ++ (serItems zs ++ ['\n', ']']) by rw [hic, List.cons_append]]
        exact parseInt_append z _ (serItems_tail_head zs)
      have hbound : zs.length < (serItems zs ++ ['\n', ']']).length + 1 := by
        have := serItems_length_ge zs
        simp only [List.length_append]
        omega
      have hpr : parseRest ((serItems zs ++ ['\n', ']']).length + 1)
          (serItems zs ++ ['\n', ']']) = some (zs, []) :=
        parseRest_serItems zs _ hbound
      simp only [serializeIntArray, parseIntArray, List.cons_append, List.append_assoc,
        List.nil_append, hic, skipWs_cons_not_ws '[' _ (by decide),
        if_pos (rfl : ('[' : Char) = '['), hwsc, if_neg hhead.2, hpi, hpr]
      simp [skipWs]
